import Mathlib

/-!
Verification development for the `acid_io` I/O core (`src/io_core.rs`).

Shallow embedding conventions:
* byte slices are `List Nat`;
* `u64` quantities are `Nat`, with `% 2 ^ 64` made explicit where the Rust
  code can wrap (`overflowing_add` in `Cursor::seek`);
* `i64` offsets are `Int` with explicit range hypotheses;
* fallible operations return `Except ErrorKind _`;
* generic readers/writers (used by the default `read_exact` / `write_all`)
  are modelled as oracles: a list of responses, one consumed per call.
-/

namespace AcidIo

/-- Error kinds the I/O core constructs and inspects (collaborator type). -/
inductive ErrorKind where
  | interrupted
  | unexpectedEof
  | writeZero
  | invalidInput
  | uncategorized
  deriving DecidableEq, Repr

deriving instance DecidableEq for Except

-- Read for &[u8] ================================================================================

/-- Embedding of `impl Read for &[u8]::read`: `copy_len = min(dst.len(), self.len())`;
the first `copy_len` bytes are copied into `dst` and the slice is advanced.
Returns the advanced slice and the bytes delivered. -/
def sliceRead (s : List Nat) (bufLen : Nat) : List Nat × List Nat :=
  let copyLen := min bufLen s.length
  (s.drop copyLen, s.take copyLen)

-- Take ==========================================================================================

/-- State of `Take<T>` with the inner reader specialised to a byte slice
(`impl Read for &[u8]`): the unread bytes of the inner slice plus the `limit` budget. -/
structure TakeSlice where
  inner : List Nat
  limit : Nat
  deriving DecidableEq, Repr

/-- Embedding of `impl Read for Take<T>::read` over a slice inner reader.
Returns the new state, the bytes delivered, and whether the inner reader was invoked. -/
def TakeSlice.read (t : TakeSlice) (bufLen : Nat) : TakeSlice × List Nat × Bool :=
  if t.limit = 0 then
    (t, [], false)
  else
    let maxLen := min bufLen t.limit
    let r := sliceRead t.inner maxLen
    (⟨r.1, t.limit - r.2.length⟩, r.2, true)

/-- Repeated `Take::read` calls with the given destination-buffer sizes;
returns the final state and the concatenation of all bytes delivered. -/
def TakeSlice.readMany (t : TakeSlice) : List Nat → TakeSlice × List Nat
  | [] => (t, [])
  | b :: bs =>
    let r := t.read b
    let rest := r.1.readMany bs
    (rest.1, r.2.1 ++ rest.2)

/-- Embedding of `impl BufRead for Take<T>::fill_buf` over a slice inner reader
(`impl BufRead for &[u8]::fill_buf` returns the whole slice). Returns the state
(unchanged), the capped buffer view, and whether the inner reader was invoked. -/
def TakeSlice.fill_buf (t : TakeSlice) : TakeSlice × List Nat × Bool :=
  if t.limit = 0 then
    (t, [], false)
  else
    let buf := t.inner
    let cap := min buf.length t.limit
    (t, buf.take cap, true)

/-- Embedding of `impl BufRead for Take<T>::consume` over a slice inner reader:
`amt` is capped to `limit`, the limit is decremented, and the capped amount is
forwarded to the inner `consume` (which drops that many bytes of the slice). -/
def TakeSlice.consume (t : TakeSlice) (amt : Nat) : TakeSlice :=
  let amt' := min amt t.limit
  ⟨t.inner.drop amt', t.limit - amt'⟩

/-- Embedding of `Take::set_limit`: the limit field is replaced by the argument. -/
def TakeSlice.set_limit (t : TakeSlice) (n : Nat) : TakeSlice :=
  ⟨t.inner, n⟩

-- Chain =========================================================================================

/-- State of `Chain<T, U>` with both inner readers specialised to byte slices. -/
structure ChainSlice where
  first : List Nat
  second : List Nat
  done_first : Bool
  deriving DecidableEq, Repr

/-- Embedding of `Read::chain`: a fresh chain has `done_first = false`. -/
def ChainSlice.mk' (a b : List Nat) : ChainSlice :=
  ⟨a, b, false⟩

/-- Embedding of `impl Read for Chain<T, U>::read` over slice inner readers.
Returns the new state, the bytes delivered, and whether the first reader was invoked. -/
def ChainSlice.read (c : ChainSlice) (bufLen : Nat) : ChainSlice × List Nat × Bool :=
  if c.done_first = false then
    let r := sliceRead c.first bufLen
    if r.2.length = 0 ∧ bufLen ≠ 0 then
      -- `0 if !buf.is_empty()`: mark exhausted, fall through to the second reader
      let r₂ := sliceRead c.second bufLen
      (⟨r.1, r₂.1, true⟩, r₂.2, true)
    else
      (⟨r.1, c.second, c.done_first⟩, r.2, true)
  else
    let r := sliceRead c.second bufLen
    (⟨c.first, r.1, c.done_first⟩, r.2, false)

/-- Embedding of `impl BufRead for Chain<T, U>::fill_buf` over slice inner readers.
Returns the new state, the buffer view, and whether the first reader was invoked. -/
def ChainSlice.fill_buf (c : ChainSlice) : ChainSlice × List Nat × Bool :=
  if c.done_first = false then
    if c.first.length = 0 then
      (⟨c.first, c.second, true⟩, c.second, true)
    else
      (c, c.first, true)
  else
    (c, c.second, false)

/-- Embedding of `impl BufRead for Chain<T, U>::consume` over slice inner readers. -/
def ChainSlice.consume (c : ChainSlice) (amt : Nat) : ChainSlice :=
  if c.done_first = false then
    ⟨c.first.drop amt, c.second, c.done_first⟩
  else
    ⟨c.first, c.second.drop amt, c.done_first⟩

/-- The bytes a chain can still deliver: the first slice (unless marked exhausted)
followed by the second. -/
def ChainSlice.remaining (c : ChainSlice) : List Nat :=
  (if c.done_first then [] else c.first) ++ c.second

/-- Repeated `Chain::read` calls with the given destination-buffer sizes. -/
def ChainSlice.readMany (c : ChainSlice) : List Nat → ChainSlice × List Nat
  | [] => (c, [])
  | b :: bs =>
    let r := c.read b
    let rest := r.1.readMany bs
    (rest.1, r.2.1 ++ rest.2)

-- Seek ==========================================================================================

/-- Embedding of `SeekFrom`: `Start` carries a `u64`, `End`/`Current` carry `i64`s. -/
inductive SeekFrom where
  | start (n : Nat)
  | fromEnd (n : Int)
  | current (n : Int)
  deriving DecidableEq, Repr

/-- The modulus of 64-bit unsigned arithmetic, `2 ^ 64`. -/
def U64_MOD : Nat := 18446744073709551616

theorem U64_MOD_eq : U64_MOD = 2 ^ 64 := by decide

/-- Embedding of `offset as u64` for an `i64` offset: two's-complement reinterpretation. -/
def i64_as_u64 (n : Int) : Nat := (n % (U64_MOD : Int)).toNat

/-- Embedding of `u64::overflowing_add`: the wrapped sum and the overflow flag. -/
def overflowing_add (a b : Nat) : Nat × Bool :=
  ((a + b) % U64_MOD, decide (U64_MOD ≤ a + b))

/-- Embedding of the `SeekFrom::End`/`SeekFrom::Current` arm of
`impl Seek for Cursor<A>::seek`: `base_pos.overflowing_add(offset as u64)`, failing
with `InvalidInput` when the overflow flag XOR `offset < 0` holds, otherwise storing
and returning the wrapped sum. Returns the new position and the call result
(the position is returned unchanged on the error path). -/
def cursor_seek_offset (pos base : Nat) (offset : Int) : Nat × Except ErrorKind Nat :=
  let r := overflowing_add base (i64_as_u64 offset)
  if Bool.xor r.2 (decide (offset < 0)) then
    (pos, .error .invalidInput)
  else
    (r.1, .ok r.1)

/-- Embedding of `impl Seek for Cursor<A>::seek` for a container of length `len`
at position `pos`. Returns the new position and the call result. -/
def cursor_seek (len pos : Nat) : SeekFrom → Nat × Except ErrorKind Nat
  | .start n => (n, .ok n)
  | .fromEnd n => cursor_seek_offset pos len n
  | .current n => cursor_seek_offset pos pos n

-- Cursor read/write =============================================================================

/-- State of `Cursor<&mut [u8]>`: the byte container and the `pos` field. -/
structure CursorSlice where
  pos : Nat
  inner : List Nat
  deriving DecidableEq, Repr

/-- Embedding of `Cursor::remaining_slice`: the container from `min(pos, len)` on. -/
def CursorSlice.remaining_slice (c : CursorSlice) : List Nat :=
  c.inner.drop (min c.pos c.inner.length)

/-- Embedding of `impl Read for Cursor<T>::read`: read from `remaining_slice()`
as a plain slice, then advance `pos` by the count delivered. -/
def CursorSlice.read (c : CursorSlice) (bufLen : Nat) : CursorSlice × List Nat :=
  let r := sliceRead c.remaining_slice bufLen
  (⟨c.pos + r.2.length, c.inner⟩, r.2)

/-- Embedding of `slice_write` (the non-resizing write used by `Cursor<&mut [u8]>`):
clamp `pos` to the slice length, accept `min(buf.len, remaining capacity)` bytes via
`impl Write for &mut [u8]`, splice them in, and advance the unclamped `pos` by the
accepted count. Returns the new position, the new slice, and the accepted count. -/
def slice_write (pos : Nat) (s : List Nat) (buf : List Nat) : Nat × List Nat × Nat :=
  let p := min pos s.length
  let amt := min buf.length (s.length - p)
  (pos + amt, s.take p ++ buf.take amt ++ s.drop (p + amt), amt)

/-- Embedding of `impl Write for Cursor<&mut [u8]>::write`. -/
def CursorSlice.write (c : CursorSlice) (buf : List Nat) : CursorSlice × Nat :=
  let r := slice_write c.pos c.inner buf
  (⟨r.1, r.2.1⟩, r.2.2)

/-- Embedding of `impl Seek for Cursor<A>::seek` acting on a cursor state. -/
def CursorSlice.seek (c : CursorSlice) (sf : SeekFrom) : CursorSlice × Except ErrorKind Nat :=
  let r := cursor_seek c.inner.length c.pos sf
  (⟨r.1, c.inner⟩, r.2)

/-- A write script: each entry seeks to `Start p` and then writes the given bytes,
mirroring a caller that performs writes at chosen positions through the cursor. -/
def CursorSlice.writeSeq (c : CursorSlice) : List (Nat × List Nat) → CursorSlice
  | [] => c
  | (p, d) :: ws => (((c.seek (.start p)).1.write d).1).writeSeq ws

/-- Specification-side splice: overwrite `s` at offset `p` with `d` (assuming
`p + d.length ≤ s.length`), leaving everything else unchanged. -/
def splice (s : List Nat) (p : Nat) (d : List Nat) : List Nat :=
  s.take p ++ d ++ s.drop (p + d.length)

/-- Specification-side overlay of a write script onto an initial container. -/
def overlay (s : List Nat) (ws : List (Nat × List Nat)) : List Nat :=
  ws.foldl (fun acc pd => splice acc pd.1 pd.2) s

/-- The first script entry whose region `[p, p + d.length)` contains index `i`. -/
def findRegion : List (Nat × List Nat) → Nat → Option (Nat × List Nat)
  | [], _ => none
  | (p, d) :: ws, i =>
    if p ≤ i ∧ i < p + d.length then some (p, d) else findRegion ws i

/-- Checks that a write script has increasing, non-overlapping regions starting at
or after `lb`, all within a container of length `cap`. -/
def writesOk (lb cap : Nat) : List (Nat × List Nat) → Bool
  | [] => true
  | (p, d) :: ws => lb ≤ p && p + d.length ≤ cap && writesOk (p + d.length) cap ws

-- Generic reader/writer oracles =================================================================

/-- One response of a generic `Read::read` call: bytes delivered, or an error. -/
inductive ReadResult where
  | ok (bytes : List Nat)
  | err (k : ErrorKind)
  deriving DecidableEq, Repr

/-- Embedding of `default_read_exact` over a response oracle. Arguments: the pending
responses, the number of unfilled bytes, and the bytes filled so far. Returns `none`
when the oracle is exhausted or a response violates the `Read` contract
(`n ≤ dst.len()` — the Rust code would panic re-slicing); otherwise the call result
paired with the filled prefix. -/
def default_read_exact : List ReadResult → Nat → List Nat →
    Option (Except ErrorKind Unit × List Nat)
  | _, 0, acc => some (.ok (), acc)
  | [], _ + 1, _ => none
  | .ok bytes :: rest, n + 1, acc =>
    if bytes.length = 0 then
      some (.error .unexpectedEof, acc)
    else if bytes.length ≤ n + 1 then
      default_read_exact rest (n + 1 - bytes.length) (acc ++ bytes)
    else
      none
  | .err .interrupted :: rest, n + 1, acc => default_read_exact rest (n + 1) acc
  | .err .unexpectedEof :: _, _ + 1, acc => some (.error .unexpectedEof, acc)
  | .err .writeZero :: _, _ + 1, acc => some (.error .writeZero, acc)
  | .err .invalidInput :: _, _ + 1, acc => some (.error .invalidInput, acc)
  | .err .uncategorized :: _, _ + 1, acc => some (.error .uncategorized, acc)

/-- The bytes supplied by the successful responses of an oracle prefix. -/
def suppliedBytes : List ReadResult → List Nat
  | [] => []
  | .ok bytes :: rest => bytes ++ suppliedBytes rest
  | .err _ :: rest => suppliedBytes rest

/-- One response of a generic `Write::write` call: a count accepted, or an error. -/
inductive WriteResult where
  | ok (n : Nat)
  | err (k : ErrorKind)
  deriving DecidableEq, Repr

/-- Embedding of the default `Write::write_all` over a response oracle. Arguments:
the pending responses and the number of unwritten bytes. Returns `none` when the
oracle is exhausted or a response accepts more than remains. -/
def write_all : List WriteResult → Nat → Option (Except ErrorKind Unit)
  | _, 0 => some (.ok ())
  | [], _ + 1 => none
  | .ok m :: rest, n + 1 =>
    if m = 0 then
      some (.error .writeZero)
    else if m ≤ n + 1 then
      write_all rest (n + 1 - m)
    else
      none
  | .err .interrupted :: rest, n + 1 => write_all rest (n + 1)
  | .err .unexpectedEof :: _, _ + 1 => some (.error .unexpectedEof)
  | .err .writeZero :: _, _ + 1 => some (.error .writeZero)
  | .err .invalidInput :: _, _ + 1 => some (.error .invalidInput)
  | .err .uncategorized :: _, _ + 1 => some (.error .uncategorized)

/-- The counts accepted by the successful responses of a write oracle prefix. -/
def acceptedBytes : List WriteResult → Nat
  | [] => 0
  | .ok m :: rest => m + acceptedBytes rest
  | .err _ :: rest => acceptedBytes rest

/-- Embedding of `impl Write for &mut [u8]::write` on lengths: a sink of remaining
capacity `cap` accepts `min(srcLen, cap)` bytes. Returns the new capacity and the
accepted count. -/
def slice_sink_write (cap srcLen : Nat) : Nat × Nat :=
  let copyLen := min srcLen cap
  (cap - copyLen, copyLen)

/-- Embedding of `impl Write for &mut [u8]::write_all`: one `write` call, `Ok` iff
it accepted the whole source, otherwise a `WriteZero` error. -/
def slice_sink_write_all (cap srcLen : Nat) : Nat × Except ErrorKind Unit :=
  let r := slice_sink_write cap srcLen
  if r.2 = srcLen then (r.1, .ok ()) else (r.1, .error .writeZero)

-- Default stream_len ============================================================================

/-- Stage three of the default `Seek::stream_len`: after the end-seek reported
`len`, seek back to `oldPos` only when `old_pos != len`. The `Nat` component
counts the seek calls made in total. -/
def stream_len_restore {σ : Type} (seekFn : σ → SeekFrom → σ × Except ErrorKind Nat)
    (oldPos : Nat) (s₂ : σ) (len : Nat) : σ × Except ErrorKind Nat × Nat :=
  if oldPos ≠ len then
    match seekFn s₂ (.start oldPos) with
    | (s₃, .error e) => (s₃, .error e, 3)
    | (s₃, .ok _) => (s₃, .ok len, 3)
  else
    (s₂, .ok len, 2)

/-- Stage two of the default `Seek::stream_len`: `len = self.seek(SeekFrom::End(0))?`. -/
def stream_len_end {σ : Type} (seekFn : σ → SeekFrom → σ × Except ErrorKind Nat)
    (s₁ : σ) (oldPos : Nat) : σ × Except ErrorKind Nat × Nat :=
  match seekFn s₁ (.fromEnd 0) with
  | (s₂, .error e) => (s₂, .error e, 2)
  | (s₂, .ok len) => stream_len_restore seekFn oldPos s₂ len

/-- Embedding of the default `Seek::stream_len` over an abstract seek operation
(state transformer plus result), instrumented with the number of seek calls made.
Mirrors: `old_pos = stream_position()?` (a `Current 0` seek), `len = seek(End 0)?`,
then `seek(Start old_pos)?` only when `old_pos != len`. -/
def default_stream_len {σ : Type} (seekFn : σ → SeekFrom → σ × Except ErrorKind Nat)
    (s : σ) : σ × Except ErrorKind Nat × Nat :=
  match seekFn s (.current 0) with
  | (s₁, .error e) => (s₁, .error e, 1)
  | (s₁, .ok oldPos) => stream_len_end seekFn s₁ oldPos

-- Lemmas: slice reader ==========================================================================

/-- A slice read delivers `take bufLen` and leaves `drop bufLen` (the clamp to the
slice length in `copy_len` is absorbed by the saturating behaviour of take/drop). -/
theorem sliceRead_eq (s : List Nat) (b : Nat) : sliceRead s b = (s.drop b, s.take b) := by
  unfold sliceRead
  simp only [Prod.mk.injEq]
  constructor
  · rcases le_or_lt b s.length with h | h
    · rw [min_eq_left h]
    · rw [min_eq_right (le_of_lt h), List.drop_length,
        Eq.comm, List.drop_eq_nil_iff]
      exact le_of_lt h
  · rw [List.take_eq_take]
    omega

-- Lemmas: Take ==================================================================================

/-- One `Take::read` call consumes exactly its delivered count from the deliverable
budget `min (inner length) limit`, and delivers at least one byte whenever the
destination is non-empty and the budget is positive. -/
theorem TakeSlice.read_budget_step (t : TakeSlice) (b : Nat) :
    ((t.read b).2.1).length + min (t.read b).1.inner.length (t.read b).1.limit
      = min t.inner.length t.limit
    ∧ (1 ≤ b → min t.inner.length t.limit ≠ 0 → ((t.read b).2.1).length ≠ 0) := by
  constructor
  · unfold TakeSlice.read sliceRead
    by_cases h : t.limit = 0
    · simp [h]
    · simp [h]
      omega
  · intro hb hz
    unfold TakeSlice.read sliceRead
    have h : ¬t.limit = 0 := by omega
    simp [h, ← List.length_eq_zero]
    omega

/-- Enough non-empty reads drain a `Take` over a slice completely: the total
delivered equals `min (data length) limit`. -/
theorem TakeSlice.readMany_total (t : TakeSlice) (bs : List Nat) (hb : ∀ x ∈ bs, 1 ≤ x)
    (hn : min t.inner.length t.limit ≤ bs.length) :
    ((t.readMany bs).2).length = min t.inner.length t.limit := by
  induction bs generalizing t with
  | nil =>
    simp only [TakeSlice.readMany, List.length_nil] at hn ⊢
    omega
  | cons b bs ih =>
    have hstep := t.read_budget_step b
    have hb1 : 1 ≤ b := hb b (by simp)
    simp only [TakeSlice.readMany, List.length_append]
    rw [ih (t.read b).1 (fun x hx => hb x (by simp [hx]))]
    · omega
    · by_cases hz : min t.inner.length t.limit = 0
      · omega
      · have := hstep.2 hb1 hz
        simp only [List.length_cons] at hn
        omega

-- Claim theorems: C1, C8 ========================================================================

/-- Claim C1: for a `Take` over a byte slice of `N` bytes with limit `L`, the total
delivered across repeated reads (with non-empty destinations, enough of them) is
exactly `min N L`; when the limit is `0`, `read` returns no bytes, leaves the state
unchanged, and does not invoke the inner reader; and when the limit is positive,
`read` delegates to the inner slice with the destination capped to
`min (dst length) limit` and subtracts the delivered count from the limit. -/
theorem take_accounting (data : List Nat) (L : Nat) (bs : List Nat)
    (t : TakeSlice) (b : Nat)
    (hb : ∀ x ∈ bs, 1 ≤ x) (hn : min data.length L ≤ bs.length) :
    ((TakeSlice.readMany ⟨data, L⟩ bs).2).length = min data.length L
    ∧ (t.limit = 0 → t.read b = (t, [], false))
    ∧ (0 < t.limit →
        (t.read b).2.1 = (sliceRead t.inner (min b t.limit)).2
        ∧ (t.read b).1.inner = (sliceRead t.inner (min b t.limit)).1
        ∧ (t.read b).1.limit = t.limit - ((t.read b).2.1).length
        ∧ (t.read b).2.2 = true) := by
  refine ⟨TakeSlice.readMany_total ⟨data, L⟩ bs hb hn, ?_, ?_⟩
  · intro h
    simp [TakeSlice.read, h]
  · intro h
    have h' : ¬t.limit = 0 := by omega
    simp [TakeSlice.read, h']

/-- Witness for C1 at a concrete input: 7 source bytes, limit 5, five 2-byte reads. -/
theorem take_accounting_witness :
    ((TakeSlice.readMany ⟨[1, 2, 3, 4, 5, 6, 7], 5⟩ [2, 2, 2, 2, 2]).2).length
      = min ([1, 2, 3, 4, 5, 6, 7] : List Nat).length 5
    ∧ ((⟨[9, 9], 0⟩ : TakeSlice).limit = 0 →
        (⟨[9, 9], 0⟩ : TakeSlice).read 3 = (⟨[9, 9], 0⟩, [], false))
    ∧ (0 < (⟨[9, 9], 0⟩ : TakeSlice).limit →
        ((⟨[9, 9], 0⟩ : TakeSlice).read 3).2.1
          = (sliceRead (⟨[9, 9], 0⟩ : TakeSlice).inner (min 3 (⟨[9, 9], 0⟩ : TakeSlice).limit)).2
        ∧ ((⟨[9, 9], 0⟩ : TakeSlice).read 3).1.inner
          = (sliceRead (⟨[9, 9], 0⟩ : TakeSlice).inner (min 3 (⟨[9, 9], 0⟩ : TakeSlice).limit)).1
        ∧ ((⟨[9, 9], 0⟩ : TakeSlice).read 3).1.limit
          = (⟨[9, 9], 0⟩ : TakeSlice).limit - (((⟨[9, 9], 0⟩ : TakeSlice).read 3).2.1).length
        ∧ ((⟨[9, 9], 0⟩ : TakeSlice).read 3).2.2 = true) :=
  take_accounting [1, 2, 3, 4, 5, 6, 7] 5 [2, 2, 2, 2, 2] ⟨[9, 9], 0⟩ 3
    (by decide) (by decide)

/-- Claim C8: no `Take` read, fill_buf, or consume increases the limit; `consume`
caps its argument to the current limit before decrementing and before forwarding to
the inner reader; `fill_buf` leaves the state untouched; and `set_limit n` replaces
the limit by exactly `n`, independent of prior consumption. -/
theorem take_limit_invariant (t : TakeSlice) (b amt n : Nat) :
    (t.read b).1.limit ≤ t.limit
    ∧ (t.fill_buf).1 = t
    ∧ (t.consume amt).limit = t.limit - min amt t.limit
    ∧ (t.consume amt).limit ≤ t.limit
    ∧ (t.consume amt).inner = t.inner.drop (min amt t.limit)
    ∧ (t.set_limit n).limit = n
    ∧ (t.set_limit n).inner = t.inner := by
  refine ⟨?_, ?_, by simp [TakeSlice.consume], by simp [TakeSlice.consume],
    by simp [TakeSlice.consume], by simp [TakeSlice.set_limit], by simp [TakeSlice.set_limit]⟩
  · unfold TakeSlice.read
    by_cases h : t.limit = 0 <;> simp [h]
  · unfold TakeSlice.fill_buf
    by_cases h : t.limit = 0 <;> simp [h]

-- Lemmas: Chain =================================================================================

/-- A take of at least one element of a non-empty list is non-empty. -/
theorem take_ne_nil (l : List Nat) (b : Nat) (hb : 1 ≤ b) (hl : l ≠ []) : l.take b ≠ [] := by
  simp only [ne_eq, List.take_eq_nil_iff]
  push_neg
  constructor
  · omega
  · exact hl

/-- One `Chain::read` call delivers a prefix of the remaining bytes (leaving the
rest), and delivers at least one byte whenever the destination is non-empty and
bytes remain. -/
theorem ChainSlice.read_prefix_step (c : ChainSlice) (b : Nat) :
    (c.read b).2.1 ++ (c.read b).1.remaining = c.remaining
    ∧ (1 ≤ b → c.remaining ≠ [] → (c.read b).2.1 ≠ []) := by
  rcases hd : c.done_first with _ | _
  · by_cases hf : c.first = []
    · by_cases hb : b = 0
      · simp [ChainSlice.read, ChainSlice.remaining, hd, hf, hb, sliceRead_eq]
      · constructor
        · simp [ChainSlice.read, ChainSlice.remaining, hd, hf, hb, sliceRead_eq,
            List.take_append_drop]
        · intro hb1 hr
          simp only [ChainSlice.remaining, hd, if_neg Bool.false_ne_true, hf,
            List.nil_append] at hr
          simp [ChainSlice.read, hd, hf, hb, sliceRead_eq, take_ne_nil c.second b hb1 hr]
    · constructor
      · simp [ChainSlice.read, ChainSlice.remaining, hd, hf, sliceRead_eq]
        rw [← List.append_assoc, List.take_append_drop]
      · intro hb1 _
        simp [ChainSlice.read, hd, hf, sliceRead_eq, take_ne_nil c.first b hb1 hf]
  · constructor
    · simp [ChainSlice.read, ChainSlice.remaining, hd, sliceRead_eq]
    · intro hb1 hr
      simp only [ChainSlice.remaining, hd, if_pos rfl, List.nil_append] at hr
      simp [ChainSlice.read, hd, sliceRead_eq, take_ne_nil c.second b hb1 hr]

/-- Repeated `Chain::read` calls deliver a prefix of the remaining bytes. -/
theorem ChainSlice.readMany_concat (c : ChainSlice) (bs : List Nat) :
    (c.readMany bs).2 ++ (c.readMany bs).1.remaining = c.remaining := by
  induction bs generalizing c with
  | nil => simp [ChainSlice.readMany]
  | cons b bs ih =>
    have hstep := (c.read_prefix_step b).1
    simp only [ChainSlice.readMany, List.append_assoc]
    rw [ih (c.read b).1]
    exact hstep

/-- Enough non-empty reads drain a chain completely. -/
theorem ChainSlice.readMany_drains (c : ChainSlice) (bs : List Nat)
    (hb : ∀ x ∈ bs, 1 ≤ x) (hn : c.remaining.length ≤ bs.length) :
    (c.readMany bs).1.remaining = [] := by
  induction bs generalizing c with
  | nil =>
    simp only [ChainSlice.readMany]
    simpa [List.length_eq_zero] using hn
  | cons b bs ih =>
    have hstep := c.read_prefix_step b
    simp only [ChainSlice.readMany]
    apply ih (c.read b).1 (fun x hx => hb x (by simp [hx]))
    by_cases hr : c.remaining = []
    · have : (c.read b).2.1 ++ (c.read b).1.remaining = [] := by rw [hstep.1, hr]
      have := List.append_eq_nil.mp this
      simp [this.2]
    · have h1 : (c.read b).2.1 ≠ [] := hstep.2 (hb b (by simp)) hr
      have hlen : (c.read b).2.1.length + (c.read b).1.remaining.length
          = c.remaining.length := by
        rw [← List.length_append, hstep.1]
      have : 1 ≤ (c.read b).2.1.length := by
        rcases Nat.eq_zero_or_pos (c.read b).2.1.length with h | h
        · exact absurd (List.length_eq_zero.mp h) h1
        · exact h
      simp only [List.length_cons] at hn
      omega

-- Claim theorem: C2 =============================================================================

/-- Claim C2: a fresh `Chain(A, B)`, read enough times with non-empty destinations,
delivers exactly `A ++ B`; while the exhausted flag is unset and the first slice is
non-empty, reads delegate to the first reader and leave the flag and second reader
untouched; when the first reader delivers nothing for a non-empty destination, the
flag is set and the same call reads from the second reader; once the flag is set,
reads and fill_buf no longer invoke the first reader and delegate to the second,
and consume forwards to the second reader only, leaving the first untouched;
and no read, fill_buf, or consume ever unsets the flag (`consume` never changes it). -/
theorem chain_ordering (A B bs : List Nat) (c : ChainSlice) (b amt : Nat)
    (hb : ∀ x ∈ bs, 1 ≤ x) (hn : A.length + B.length ≤ bs.length) :
    ((ChainSlice.mk' A B).readMany bs).2 = A ++ B
    ∧ (c.done_first = false → c.first ≠ [] →
        (c.read b).2.1 = c.first.take b
        ∧ (c.read b).1.done_first = false
        ∧ (c.read b).1.second = c.second
        ∧ (c.read b).2.2 = true)
    ∧ (c.done_first = false → c.first = [] → 1 ≤ b →
        (c.read b).1.done_first = true
        ∧ (c.read b).2.1 = c.second.take b)
    ∧ (c.done_first = true →
        (c.read b).2.2 = false
        ∧ (c.read b).2.1 = c.second.take b
        ∧ (c.read b).1.first = c.first
        ∧ (c.fill_buf).2.2 = false
        ∧ (c.fill_buf).2.1 = c.second)
    ∧ (c.done_first = true →
        (c.read b).1.done_first = true
        ∧ (c.fill_buf).1.done_first = true)
    ∧ (c.done_first = true →
        (c.consume amt).first = c.first
        ∧ (c.consume amt).second = c.second.drop amt)
    ∧ (c.consume amt).done_first = c.done_first := by
  refine ⟨?_, ?_, ?_, ?_, ?_, ?_, ?_⟩
  · have h₁ := ChainSlice.readMany_concat (ChainSlice.mk' A B) bs
    have h₂ := ChainSlice.readMany_drains (ChainSlice.mk' A B) bs hb
      (by simp [ChainSlice.mk', ChainSlice.remaining]; omega)
    rw [h₂] at h₁
    simpa [ChainSlice.mk', ChainSlice.remaining] using h₁
  · intro hd hf
    have hlen : c.first.length ≠ 0 := by simpa [List.length_eq_zero] using hf
    by_cases hb0 : b = 0
    · simp [ChainSlice.read, hd, hb0, sliceRead_eq]
    · simp [ChainSlice.read, hd, sliceRead_eq, hf, hb0]
  · intro hd hf hb1
    have hb0 : b ≠ 0 := by omega
    simp [ChainSlice.read, hd, hf, hb0, sliceRead_eq]
  · intro hd
    simp [ChainSlice.read, ChainSlice.fill_buf, hd, sliceRead_eq]
  · intro hd
    simp [ChainSlice.read, ChainSlice.fill_buf, hd]
  · intro hd
    simp [ChainSlice.consume, hd]
  · unfold ChainSlice.consume
    rcases hd : c.done_first with _ | _ <;> simp

/-- Witness for C2 at concrete inputs: `Chain(b"Hello, ", b"world!")` read byte by
byte yields the exact concatenation, and a flag-set chain delegates to the second
reader only. -/
theorem chain_ordering_witness :
    ((ChainSlice.mk' [72, 101, 108, 108, 111, 44, 32] [119, 111, 114, 108, 100, 33]).readMany
        [1, 1, 1, 1, 1, 1, 1, 1, 1, 1, 1, 1, 1, 1]).2
      = [72, 101, 108, 108, 111, 44, 32] ++ [119, 111, 114, 108, 100, 33]
    ∧ ((⟨[7], [9], true⟩ : ChainSlice).done_first = false →
        (⟨[7], [9], true⟩ : ChainSlice).first ≠ [] →
        ((⟨[7], [9], true⟩ : ChainSlice).read 1).2.1
            = (⟨[7], [9], true⟩ : ChainSlice).first.take 1
        ∧ ((⟨[7], [9], true⟩ : ChainSlice).read 1).1.done_first = false
        ∧ ((⟨[7], [9], true⟩ : ChainSlice).read 1).1.second
            = (⟨[7], [9], true⟩ : ChainSlice).second
        ∧ ((⟨[7], [9], true⟩ : ChainSlice).read 1).2.2 = true)
    ∧ ((⟨[7], [9], true⟩ : ChainSlice).done_first = false →
        (⟨[7], [9], true⟩ : ChainSlice).first = [] → 1 ≤ 1 →
        ((⟨[7], [9], true⟩ : ChainSlice).read 1).1.done_first = true
        ∧ ((⟨[7], [9], true⟩ : ChainSlice).read 1).2.1
            = (⟨[7], [9], true⟩ : ChainSlice).second.take 1)
    ∧ ((⟨[7], [9], true⟩ : ChainSlice).done_first = true →
        ((⟨[7], [9], true⟩ : ChainSlice).read 1).2.2 = false
        ∧ ((⟨[7], [9], true⟩ : ChainSlice).read 1).2.1
            = (⟨[7], [9], true⟩ : ChainSlice).second.take 1
        ∧ ((⟨[7], [9], true⟩ : ChainSlice).read 1).1.first
            = (⟨[7], [9], true⟩ : ChainSlice).first
        ∧ ((⟨[7], [9], true⟩ : ChainSlice).fill_buf).2.2 = false
        ∧ ((⟨[7], [9], true⟩ : ChainSlice).fill_buf).2.1
            = (⟨[7], [9], true⟩ : ChainSlice).second)
    ∧ ((⟨[7], [9], true⟩ : ChainSlice).done_first = true →
        ((⟨[7], [9], true⟩ : ChainSlice).read 1).1.done_first = true
        ∧ ((⟨[7], [9], true⟩ : ChainSlice).fill_buf).1.done_first = true)
    ∧ ((⟨[7], [9], true⟩ : ChainSlice).done_first = true →
        ((⟨[7], [9], true⟩ : ChainSlice).consume 1).first
            = (⟨[7], [9], true⟩ : ChainSlice).first
        ∧ ((⟨[7], [9], true⟩ : ChainSlice).consume 1).second
            = (⟨[7], [9], true⟩ : ChainSlice).second.drop 1)
    ∧ ((⟨[7], [9], true⟩ : ChainSlice).consume 1).done_first
        = (⟨[7], [9], true⟩ : ChainSlice).done_first :=
  chain_ordering [72, 101, 108, 108, 111, 44, 32] [119, 111, 114, 108, 100, 33]
    [1, 1, 1, 1, 1, 1, 1, 1, 1, 1, 1, 1, 1, 1] ⟨[7], [9], true⟩ 1 1
    (by decide) (by decide)

-- Lemmas: Cursor seek ===========================================================================

/-- Two's-complement reinterpretation of a negative `i64` as `u64` adds `2 ^ 64`. -/
theorem i64_as_u64_neg (off : Int) (h1 : -(2 ^ 63 : Int) ≤ off) (h2 : off < 0) :
    (i64_as_u64 off : Int) = off + U64_MOD := by
  unfold i64_as_u64 U64_MOD
  omega

/-- Reinterpretation of a non-negative `i64` as `u64` is the identity. -/
theorem i64_as_u64_nonneg (off : Int) (h1 : 0 ≤ off) (h2 : off < (2 ^ 63 : Int)) :
    (i64_as_u64 off : Int) = off := by
  unfold i64_as_u64 U64_MOD
  omega

/-- Semantic characterisation of the Current/End seek arithmetic: the call fails
exactly when the mathematical sum `base + offset` lies outside `[0, 2 ^ 64)`
(i.e. when the overflow flag and the sign of the offset disagree), it leaves the
position untouched on failure, and on success it stores and returns the sum. -/
theorem cursor_seek_offset_spec (pos base : Nat) (off : Int)
    (hbase : base < U64_MOD) (hlo : -(2 ^ 63 : Int) ≤ off) (hhi : off < (2 ^ 63 : Int)) :
    ((cursor_seek_offset pos base off).2 = .error .invalidInput
        ↔ ((base : Int) + off < 0 ∨ (U64_MOD : Int) ≤ (base : Int) + off))
    ∧ ((cursor_seek_offset pos base off).2 = .error .invalidInput →
        (cursor_seek_offset pos base off).1 = pos)
    ∧ (0 ≤ (base : Int) + off → (base : Int) + off < (U64_MOD : Int) →
        cursor_seek_offset pos base off
          = (((base : Int) + off).toNat, .ok (((base : Int) + off).toNat))) := by
  unfold cursor_seek_offset overflowing_add
  rcases lt_or_le off 0 with hneg | hnn
  · have hval := i64_as_u64_neg off hlo hneg
    have hd : decide (off < 0) = true := by simp [hneg]
    by_cases hov : U64_MOD ≤ base + i64_as_u64 off
    · have hxor : Bool.xor (decide (U64_MOD ≤ base + i64_as_u64 off)) (decide (off < 0))
          = false := by simp [hov, hd]
      simp only [hxor, if_neg Bool.false_ne_true, Bool.false_eq_true, if_false]
      refine ⟨?_, ?_, ?_⟩
      · simp only [reduceCtorEq, false_iff]
        unfold U64_MOD at *
        omega
      · intro h
        exact absurd h (by simp)
      · intro h1 h2
        simp only [Prod.mk.injEq, Except.ok.injEq]
        unfold U64_MOD at *
        constructor <;> omega
    · have hxor : Bool.xor (decide (U64_MOD ≤ base + i64_as_u64 off)) (decide (off < 0))
          = true := by simp [hov, hd]
      simp only [hxor, if_pos rfl, if_true]
      refine ⟨?_, fun _ => trivial, ?_⟩
      · simp only [true_iff]
        unfold U64_MOD at *
        omega
      · intro h1 h2
        unfold U64_MOD at *
        omega
  · have hval := i64_as_u64_nonneg off hnn hhi
    have hd : decide (off < 0) = false := by simp; omega
    by_cases hov : U64_MOD ≤ base + i64_as_u64 off
    · have hxor : Bool.xor (decide (U64_MOD ≤ base + i64_as_u64 off)) (decide (off < 0))
          = true := by simp [hov, hd]
      simp only [hxor, if_pos rfl, if_true]
      refine ⟨?_, fun _ => trivial, ?_⟩
      · simp only [true_iff]
        unfold U64_MOD at *
        omega
      · intro h1 h2
        unfold U64_MOD at *
        omega
    · have hxor : Bool.xor (decide (U64_MOD ≤ base + i64_as_u64 off)) (decide (off < 0))
          = false := by simp [hov, hd]
      simp only [hxor, if_neg Bool.false_ne_true, Bool.false_eq_true, if_false]
      refine ⟨?_, ?_, ?_⟩
      · simp only [reduceCtorEq, false_iff]
        unfold U64_MOD at *
        omega
      · intro h
        exact absurd h (by simp)
      · intro h1 h2
        simp only [Prod.mk.injEq, Except.ok.injEq]
        unfold U64_MOD at *
        constructor <;> omega

-- Claim theorems: C3, C10 =======================================================================

/-- Claim C3: `Cursor::seek` with `Start(n)` always succeeds, setting the position
to `n` with no arithmetic and no validation against the container length; with
`Current`/`End` it computes base position plus offset in 64-bit arithmetic with the
overflow flag XOR the offset sign deciding failure, which happens exactly when the
mathematical sum is negative or does not fit in a `u64`, and otherwise it stores and
returns the sum; in particular `seek(Current, -1)` at position 0 fails with
invalid-input for any container, and `seek(End(0))` on a 5-byte container returns 5
regardless of the starting position. -/
theorem cursor_seek_arithmetic (len pos q n : Nat) (off : Int)
    (hpos : pos < U64_MOD) (hlen : len < U64_MOD)
    (hlo : -(2 ^ 63 : Int) ≤ off) (hhi : off < (2 ^ 63 : Int)) :
    cursor_seek len pos (.start n) = (n, .ok n)
    ∧ ((cursor_seek len pos (.current off)).2 = .error .invalidInput
        ↔ ((pos : Int) + off < 0 ∨ (U64_MOD : Int) ≤ (pos : Int) + off))
    ∧ ((cursor_seek len pos (.fromEnd off)).2 = .error .invalidInput
        ↔ ((len : Int) + off < 0 ∨ (U64_MOD : Int) ≤ (len : Int) + off))
    ∧ (0 ≤ (pos : Int) + off → (pos : Int) + off < (U64_MOD : Int) →
        cursor_seek len pos (.current off)
          = (((pos : Int) + off).toNat, .ok (((pos : Int) + off).toNat)))
    ∧ (0 ≤ (len : Int) + off → (len : Int) + off < (U64_MOD : Int) →
        cursor_seek len pos (.fromEnd off)
          = (((len : Int) + off).toNat, .ok (((len : Int) + off).toNat)))
    ∧ cursor_seek len 0 (.current (-1)) = (0, .error .invalidInput)
    ∧ cursor_seek 5 q (.fromEnd 0) = (5, .ok 5) := by
  have hc := cursor_seek_offset_spec pos pos off hpos hlo hhi
  have he := cursor_seek_offset_spec pos len off hlen hlo hhi
  refine ⟨rfl, ?_, ?_, ?_, ?_, ?_, ?_⟩
  · exact hc.1
  · exact he.1
  · intro h1 h2
    exact hc.2.2 h1 h2
  · intro h1 h2
    exact he.2.2 h1 h2
  · show cursor_seek_offset 0 0 (-1) = (0, .error .invalidInput)
    decide
  · show cursor_seek_offset q 5 0 = (5, .ok 5)
    unfold cursor_seek_offset overflowing_add i64_as_u64 U64_MOD
    norm_num

/-- Witness for C3 at concrete inputs: a 5-byte container at position 2. -/
theorem cursor_seek_arithmetic_witness :
    cursor_seek 5 2 (.start 7) = (7, .ok 7)
    ∧ ((cursor_seek 5 2 (.current (-3))).2 = .error .invalidInput
        ↔ ((2 : Int) + (-3) < 0 ∨ (U64_MOD : Int) ≤ (2 : Int) + (-3)))
    ∧ ((cursor_seek 5 2 (.fromEnd (-3))).2 = .error .invalidInput
        ↔ ((5 : Int) + (-3) < 0 ∨ (U64_MOD : Int) ≤ (5 : Int) + (-3)))
    ∧ (0 ≤ (2 : Int) + (-3) → (2 : Int) + (-3) < (U64_MOD : Int) →
        cursor_seek 5 2 (.current (-3))
          = (((2 : Int) + (-3)).toNat, .ok (((2 : Int) + (-3)).toNat)))
    ∧ (0 ≤ (5 : Int) + (-3) → (5 : Int) + (-3) < (U64_MOD : Int) →
        cursor_seek 5 2 (.fromEnd (-3))
          = (((5 : Int) + (-3)).toNat, .ok (((5 : Int) + (-3)).toNat)))
    ∧ cursor_seek 5 0 (.current (-1)) = (0, .error .invalidInput)
    ∧ cursor_seek 5 2 (.fromEnd 0) = (5, .ok 5) :=
  cursor_seek_arithmetic 5 2 2 7 (-3) (by decide) (by decide) (by decide) (by decide)

/-- Claim C10 (implicit): when `Cursor::seek` fails (which only the `Current`/`End`
arithmetic can do), the position field is left exactly as it was before the call —
it is only assigned on the success path. -/
theorem cursor_seek_atomic (len pos : Nat) (sf : SeekFrom) (k : ErrorKind)
    (herr : (cursor_seek len pos sf).2 = .error k) :
    (cursor_seek len pos sf).1 = pos := by
  rcases sf with n | n | n
  · exact absurd herr (by simp [cursor_seek])
  · unfold cursor_seek cursor_seek_offset at *
    by_cases hx : Bool.xor (overflowing_add len (i64_as_u64 n)).2 (decide (n < 0)) = true
    · simp [hx]
    · simp [hx] at herr
  · unfold cursor_seek cursor_seek_offset at *
    by_cases hx : Bool.xor (overflowing_add pos (i64_as_u64 n)).2 (decide (n < 0)) = true
    · simp [hx]
    · simp [hx] at herr

/-- Witness for C10: the failing `seek(Current, -1)` at position 0 leaves the
position at 0. -/
theorem cursor_seek_atomic_witness :
    (cursor_seek 5 0 (.current (-1))).1 = 0 :=
  cursor_seek_atomic 5 0 (.current (-1)) .invalidInput (by decide)

-- Lemmas: splice / cursor write =================================================================

/-- Element-wise description of `splice`: indices inside `[p, p + d.length)` come
from `d`, all other indices keep the original contents. -/
theorem splice_getElem (s d : List Nat) (p i : Nat) (hp : p + d.length ≤ s.length) :
    (splice s p d)[i]? = if p ≤ i ∧ i < p + d.length then d[i - p]? else s[i]? := by
  unfold splice
  have hto : (s.take p).length = p := by
    rw [List.length_take]
    omega
  rw [List.append_assoc, List.getElem?_append, hto]
  by_cases h1 : i < p
  · rw [if_pos h1, List.getElem?_take_of_lt h1, if_neg (by omega)]
  · rw [if_neg h1, List.getElem?_append]
    by_cases h2 : i - p < d.length
    · rw [if_pos h2, if_pos ⟨by omega, by omega⟩]
    · rw [if_neg h2, if_neg (by omega), List.getElem?_drop]
      congr 1
      omega

/-- The new container produced by `slice_write` is the splice of the accepted
prefix of `buf` at the clamped position. -/
theorem slice_write_as_splice (pos : Nat) (s buf : List Nat) :
    (slice_write pos s buf).2.1
      = splice s (min pos s.length) (buf.take (min buf.length (s.length - min pos s.length))) := by
  unfold slice_write splice
  simp only [List.length_take]
  have : min (min buf.length (s.length - min pos s.length)) buf.length
      = min buf.length (s.length - min pos s.length) := by omega
  rw [this]

-- Claim theorem: C6 =============================================================================

/-- Claim C6: `Cursor<&mut [u8]>::write` copies into the container starting at
`min(position, length)`, truncating the copy to the remaining capacity (the count
accepted is `min (buf length) (capacity)`); the container never changes length;
the position advances by exactly the accepted count, which is also the return
value; indices outside the written range keep their prior contents; and a write at
or past the end, or with zero remaining capacity, accepts zero bytes and is a
success (the embedded operation is total — `slice_write` has no error path). -/
theorem cursor_write_semantics (pos : Nat) (s buf : List Nat) (i : Nat) :
    (slice_write pos s buf).2.2 = min buf.length (s.length - min pos s.length)
    ∧ (slice_write pos s buf).1 = pos + (slice_write pos s buf).2.2
    ∧ ((slice_write pos s buf).2.1).length = s.length
    ∧ ((slice_write pos s buf).2.1)[i]?
        = (if min pos s.length ≤ i ∧ i < min pos s.length + (slice_write pos s buf).2.2 then
            buf[i - min pos s.length]?
          else
            s[i]?)
    ∧ (s.length ≤ pos → (slice_write pos s buf).2.2 = 0 ∧ (slice_write pos s buf).2.1 = s)
    ∧ (s.length - min pos s.length = 0 → (slice_write pos s buf).2.2 = 0) := by
  have hamt : (slice_write pos s buf).2.2 = min buf.length (s.length - min pos s.length) := rfl
  have hs := slice_write_as_splice pos s buf
  refine ⟨rfl, rfl, ?_, ?_, ?_, by intro h; simp only [hamt]; omega⟩
  · rw [hs]
    unfold splice
    simp only [List.length_append, List.length_take, List.length_drop]
    omega
  · rw [hs, hamt, splice_getElem]
    · have hlt : min buf.length (s.length - min pos s.length) ≤ buf.length := by omega
      have : (buf.take (min buf.length (s.length - min pos s.length))).length
          = min buf.length (s.length - min pos s.length) := by
        rw [List.length_take]
        omega
      rw [this]
      by_cases hc : min pos s.length ≤ i ∧ i < min pos s.length
          + min buf.length (s.length - min pos s.length)
      · rw [if_pos hc, if_pos hc, List.getElem?_take_of_lt (by omega)]
      · rw [if_neg hc, if_neg hc]
    · rw [List.length_take]
      omega
  · intro h
    have hp : min pos s.length = s.length := by omega
    refine ⟨by simp only [hamt, hp]; omega, ?_⟩
    rw [hs, hp]
    unfold splice
    have h0 : min buf.length (s.length - s.length) = 0 := by omega
    rw [h0]
    simp

/-- Witness for C6 at a concrete input: writing 2 bytes at position 1 of a 4-byte
container (and checking the past-the-end conjuncts vacuously/concretely). -/
theorem cursor_write_semantics_witness :
    (slice_write 1 [0, 0, 0, 0] [7, 8]).2.2
        = min ([7, 8] : List Nat).length (([0, 0, 0, 0] : List Nat).length
            - min 1 ([0, 0, 0, 0] : List Nat).length)
    ∧ (slice_write 1 [0, 0, 0, 0] [7, 8]).1 = 1 + (slice_write 1 [0, 0, 0, 0] [7, 8]).2.2
    ∧ ((slice_write 1 [0, 0, 0, 0] [7, 8]).2.1).length = ([0, 0, 0, 0] : List Nat).length
    ∧ ((slice_write 1 [0, 0, 0, 0] [7, 8]).2.1)[2]?
        = (if min 1 ([0, 0, 0, 0] : List Nat).length ≤ 2
              ∧ 2 < min 1 ([0, 0, 0, 0] : List Nat).length
                  + (slice_write 1 [0, 0, 0, 0] [7, 8]).2.2 then
            ([7, 8] : List Nat)[2 - min 1 ([0, 0, 0, 0] : List Nat).length]?
          else
            ([0, 0, 0, 0] : List Nat)[2]?)
    ∧ (([0, 0, 0, 0] : List Nat).length ≤ 1 →
        (slice_write 1 [0, 0, 0, 0] [7, 8]).2.2 = 0
        ∧ (slice_write 1 [0, 0, 0, 0] [7, 8]).2.1 = [0, 0, 0, 0])
    ∧ (([0, 0, 0, 0] : List Nat).length - min 1 ([0, 0, 0, 0] : List Nat).length = 0 →
        (slice_write 1 [0, 0, 0, 0] [7, 8]).2.2 = 0) :=
  cursor_write_semantics 1 [0, 0, 0, 0] [7, 8] 2

-- Lemmas: write scripts / overlay ===============================================================

/-- An in-capacity splice preserves the container length. -/
theorem splice_length (s d : List Nat) (p : Nat) (hp : p + d.length ≤ s.length) :
    (splice s p d).length = s.length := by
  unfold splice
  simp only [List.length_append, List.length_take, List.length_drop]
  omega

/-- A seek to `Start p` followed by a write of `d`, all within capacity, leaves the
cursor at `p + d.length` over the spliced container. -/
theorem cursor_seek_start_write (c : CursorSlice) (p : Nat) (d : List Nat)
    (h : p + d.length ≤ c.inner.length) :
    ((c.seek (.start p)).1.write d).1 = ⟨p + d.length, splice c.inner p d⟩ := by
  unfold CursorSlice.seek cursor_seek CursorSlice.write slice_write splice
  have hp : min p c.inner.length = p := by omega
  have hamt : min d.length (c.inner.length - p) = d.length := by omega
  simp only [hp, hamt, List.take_length]

/-- Processing a within-capacity write script through the cursor produces exactly
the overlay of the script on the initial container. -/
theorem writeSeq_inner (pos lb : Nat) (s : List Nat) (ws : List (Nat × List Nat))
    (hok : writesOk lb s.length ws = true) :
    ((⟨pos, s⟩ : CursorSlice).writeSeq ws).inner = overlay s ws := by
  induction ws generalizing pos lb s with
  | nil => rfl
  | cons pd ws ih =>
    obtain ⟨p, d⟩ := pd
    simp only [writesOk, Bool.and_eq_true, decide_eq_true_eq] at hok
    obtain ⟨⟨hlb, hcap⟩, hrest⟩ := hok
    show (((((⟨pos, s⟩ : CursorSlice).seek (.start p)).1.write d).1).writeSeq ws).inner
        = overlay (splice s p d) ws
    rw [cursor_seek_start_write ⟨pos, s⟩ p d hcap]
    exact ih (p + d.length) (p + d.length) (splice s p d)
      (by rw [splice_length s d p hcap]; exact hrest)

/-- An overlay of a within-capacity script preserves the container length. -/
theorem overlay_length (lb : Nat) (s : List Nat) (ws : List (Nat × List Nat))
    (hok : writesOk lb s.length ws = true) :
    (overlay s ws).length = s.length := by
  induction ws generalizing lb s with
  | nil => rfl
  | cons pd ws ih =>
    obtain ⟨p, d⟩ := pd
    simp only [writesOk, Bool.and_eq_true, decide_eq_true_eq] at hok
    obtain ⟨⟨hlb, hcap⟩, hrest⟩ := hok
    show (overlay (splice s p d) ws).length = s.length
    rw [ih (p + d.length) (splice s p d) (by rw [splice_length s d p hcap]; exact hrest),
      splice_length s d p hcap]

/-- Indices below the lower bound of a sorted script belong to no region. -/
theorem findRegion_none_of_lt (lb cap i : Nat) (ws : List (Nat × List Nat))
    (hok : writesOk lb cap ws = true) (hi : i < lb) :
    findRegion ws i = none := by
  induction ws generalizing lb with
  | nil => rfl
  | cons pd ws ih =>
    obtain ⟨p, d⟩ := pd
    simp only [writesOk, Bool.and_eq_true, decide_eq_true_eq] at hok
    obtain ⟨⟨hlb, hcap⟩, hrest⟩ := hok
    show (if p ≤ i ∧ i < p + d.length then some (p, d) else findRegion ws i) = none
    rw [if_neg (by omega)]
    exact ih (p + d.length) hrest (by omega)

/-- Element-wise description of the overlay of a sorted, non-overlapping,
within-capacity write script: an index inside some region reads from that region's
data, any other index keeps the initial contents. -/
theorem overlay_getElem (lb i : Nat) (s : List Nat) (ws : List (Nat × List Nat))
    (hok : writesOk lb s.length ws = true) :
    (overlay s ws)[i]? = (match findRegion ws i with
      | some pd => pd.2[i - pd.1]?
      | none => s[i]?) := by
  induction ws generalizing lb s with
  | nil => rfl
  | cons pd ws ih =>
    obtain ⟨p, d⟩ := pd
    simp only [writesOk, Bool.and_eq_true, decide_eq_true_eq] at hok
    obtain ⟨⟨hlb, hcap⟩, hrest⟩ := hok
    have hok' : writesOk (p + d.length) (splice s p d).length ws = true := by
      rw [splice_length s d p hcap]
      exact hrest
    show (overlay (splice s p d) ws)[i]?
        = (match (if p ≤ i ∧ i < p + d.length then some (p, d) else findRegion ws i) with
          | some pd => pd.2[i - pd.1]?
          | none => s[i]?)
    by_cases hin : p ≤ i ∧ i < p + d.length
    · rw [if_pos hin, ih (p + d.length) (splice s p d) hok',
        findRegion_none_of_lt (p + d.length) (splice s p d).length i ws hok' (by omega)]
      show (splice s p d)[i]? = d[i - p]?
      rw [splice_getElem s d p i hcap, if_pos hin]
    · rw [if_neg hin, ih (p + d.length) (splice s p d) hok']
      rcases hfr : findRegion ws i with _ | pd'
      · simp only [hfr]
        rw [splice_getElem s d p i hcap, if_neg hin]
      · simp only [hfr]

-- Claim theorem: C7 =============================================================================

/-- Claim C7: for a fixed byte container and a write script at increasing,
non-overlapping positions within capacity, performing the writes through a cursor,
then `seek(Start(0))`, then reading the full container, reproduces exactly the
overlay of the writes on the initial contents: every index inside a written region
reads back that region's byte, and every untouched index keeps its prior
(e.g. zero-padded) contents. -/
theorem cursor_round_trip (init : List Nat) (ws : List (Nat × List Nat)) (i : Nat)
    (hok : writesOk 0 init.length ws = true) :
    (((((⟨0, init⟩ : CursorSlice).writeSeq ws).seek (.start 0)).1.read init.length)).2
        = overlay init ws
    ∧ (overlay init ws).length = init.length
    ∧ (overlay init ws)[i]? = (match findRegion ws i with
        | some pd => pd.2[i - pd.1]?
        | none => init[i]?) := by
  have hinner := writeSeq_inner 0 0 init ws hok
  have hlen := overlay_length 0 init ws hok
  refine ⟨?_, hlen, overlay_getElem 0 i init ws hok⟩
  unfold CursorSlice.seek cursor_seek CursorSlice.read CursorSlice.remaining_slice sliceRead
  simp only [hinner]
  have h0 : min 0 (overlay init ws).length = 0 := by omega
  rw [h0, List.drop_zero]
  have : min init.length (overlay init ws).length = (overlay init ws).length := by omega
  rw [this, List.take_length]

/-- Witness for C7 at a concrete input: a 6-byte zero container with writes of
`[7, 8]` at position 1 and `[9]` at position 4. -/
theorem cursor_round_trip_witness :
    (((((⟨0, [0, 0, 0, 0, 0, 0]⟩ : CursorSlice).writeSeq [(1, [7, 8]), (4, [9])]).seek
            (.start 0)).1.read ([0, 0, 0, 0, 0, 0] : List Nat).length)).2
        = overlay [0, 0, 0, 0, 0, 0] [(1, [7, 8]), (4, [9])]
    ∧ (overlay [0, 0, 0, 0, 0, 0] [(1, [7, 8]), (4, [9])]).length
        = ([0, 0, 0, 0, 0, 0] : List Nat).length
    ∧ (overlay [0, 0, 0, 0, 0, 0] [(1, [7, 8]), (4, [9])])[2]?
        = (match findRegion [(1, [7, 8]), (4, [9])] 2 with
          | some pd => pd.2[2 - pd.1]?
          | none => ([0, 0, 0, 0, 0, 0] : List Nat)[2]?) :=
  cursor_round_trip [0, 0, 0, 0, 0, 0] [(1, [7, 8]), (4, [9])] 2 (by decide)

-- Lemmas: default read_exact ===================================================================

/-- Whatever `default_read_exact` returns, the filled bytes are the accumulator
followed by exactly the bytes supplied by the consumed prefix of the oracle. -/
theorem default_read_exact_filled (trace : List ReadResult) (n : Nat) (acc : List Nat)
    (res : Except ErrorKind Unit × List Nat)
    (h : default_read_exact trace n acc = some res) :
    ∃ used rest, trace = used ++ rest ∧ res.2 = acc ++ suppliedBytes used := by
  induction trace generalizing n acc res with
  | nil =>
    match n with
    | 0 =>
      simp only [default_read_exact, Option.some.injEq] at h
      exact ⟨[], [], rfl, by rw [← h]; simp [suppliedBytes]⟩
    | _ + 1 => simp [default_read_exact] at h
  | cons hd rest ih =>
    match n with
    | 0 =>
      simp only [default_read_exact, Option.some.injEq] at h
      exact ⟨[], hd :: rest, rfl, by rw [← h]; simp [suppliedBytes]⟩
    | m + 1 =>
      match hd with
      | .ok bytes =>
        by_cases h0 : bytes.length = 0
        · simp only [default_read_exact] at h
          rw [if_pos h0] at h
          simp only [Option.some.injEq] at h
          refine ⟨[.ok bytes], rest, rfl, ?_⟩
          rw [← h]
          have : bytes = [] := List.length_eq_zero.mp h0
          simp [suppliedBytes, this]
        · by_cases h1 : bytes.length ≤ m + 1
          · simp only [default_read_exact] at h
            rw [if_neg h0, if_pos h1] at h
            obtain ⟨used, rest', heq, hsup⟩ := ih (m + 1 - bytes.length) (acc ++ bytes) res h
            exact ⟨.ok bytes :: used, rest', by simp [heq], by
              rw [hsup]; simp [suppliedBytes]⟩
          · simp only [default_read_exact] at h
            rw [if_neg h0, if_neg h1] at h
            exact absurd h (by simp)
      | .err .interrupted =>
        obtain ⟨used, rest', heq, hsup⟩ := ih (m + 1) acc res h
        exact ⟨.err .interrupted :: used, rest', by simp [heq], by rw [hsup]; simp [suppliedBytes]⟩
      | .err .unexpectedEof =>
        simp only [default_read_exact, Option.some.injEq] at h
        exact ⟨[.err .unexpectedEof], rest, rfl, by rw [← h]; simp [suppliedBytes]⟩
      | .err .writeZero =>
        simp only [default_read_exact, Option.some.injEq] at h
        exact ⟨[.err .writeZero], rest, rfl, by rw [← h]; simp [suppliedBytes]⟩
      | .err .invalidInput =>
        simp only [default_read_exact, Option.some.injEq] at h
        exact ⟨[.err .invalidInput], rest, rfl, by rw [← h]; simp [suppliedBytes]⟩
      | .err .uncategorized =>
        simp only [default_read_exact, Option.some.injEq] at h
        exact ⟨[.err .uncategorized], rest, rfl, by rw [← h]; simp [suppliedBytes]⟩

/-- A successful `default_read_exact` has filled exactly the requested count on
top of the accumulator. -/
theorem default_read_exact_ok_length (trace : List ReadResult) (n : Nat) (acc filled : List Nat)
    (h : default_read_exact trace n acc = some (.ok (), filled)) :
    filled.length = acc.length + n := by
  induction trace generalizing n acc filled with
  | nil =>
    match n with
    | 0 =>
      simp only [default_read_exact, Option.some.injEq, Prod.mk.injEq] at h
      rw [← h.2]
      omega
    | _ + 1 => simp [default_read_exact] at h
  | cons hd rest ih =>
    match n with
    | 0 =>
      simp only [default_read_exact, Option.some.injEq, Prod.mk.injEq] at h
      rw [← h.2]
      omega
    | m + 1 =>
      match hd with
      | .ok bytes =>
        by_cases h0 : bytes.length = 0
        · simp only [default_read_exact] at h
          rw [if_pos h0] at h
          simp only [Option.some.injEq, Prod.mk.injEq] at h
          exact absurd h.1 (by simp)
        · by_cases h1 : bytes.length ≤ m + 1
          · simp only [default_read_exact] at h
            rw [if_neg h0, if_pos h1] at h
            have := ih (m + 1 - bytes.length) (acc ++ bytes) filled h
            simp only [List.length_append] at this
            omega
          · simp only [default_read_exact] at h
            rw [if_neg h0, if_neg h1] at h
            exact absurd h (by simp)
      | .err .interrupted => exact ih (m + 1) acc filled h
      | .err .unexpectedEof =>
        simp only [default_read_exact, Option.some.injEq, Prod.mk.injEq] at h
        exact absurd h.1 (by simp)
      | .err .writeZero =>
        simp only [default_read_exact, Option.some.injEq, Prod.mk.injEq] at h
        exact absurd h.1 (by simp)
      | .err .invalidInput =>
        simp only [default_read_exact, Option.some.injEq, Prod.mk.injEq] at h
        exact absurd h.1 (by simp)
      | .err .uncategorized =>
        simp only [default_read_exact, Option.some.injEq, Prod.mk.injEq] at h
        exact absurd h.1 (by simp)

-- Claim theorem: C4 =============================================================================

/-- Claim C4: the default `read_exact` succeeds immediately once the unfilled
suffix is empty; a success has filled exactly the requested count; a read
delivering `0` bytes while the suffix is non-empty fails with unexpected-end-of-data;
an interrupted error is retried with no other effect; any other error is returned
immediately; and in every outcome the filled prefix is exactly the bytes supplied
by the underlying reads consumed so far (never more than was supplied). -/
theorem read_exact_contract (trace rest : List ReadResult) (n : Nat) (acc : List Nat)
    (k : ErrorKind) (res : Except ErrorKind Unit × List Nat)
    (hk : k ≠ .interrupted)
    (hres : default_read_exact trace n [] = some res) :
    default_read_exact trace 0 acc = some (.ok (), acc)
    ∧ (res.1 = .ok () → res.2.length = n)
    ∧ default_read_exact (.ok [] :: rest) (n + 1) acc = some (.error .unexpectedEof, acc)
    ∧ default_read_exact (.err .interrupted :: rest) (n + 1) acc
        = default_read_exact rest (n + 1) acc
    ∧ default_read_exact (.err k :: rest) (n + 1) acc = some (.error k, acc)
    ∧ (∃ used rest', trace = used ++ rest' ∧ res.2 = suppliedBytes used) := by
  refine ⟨?_, ?_, rfl, rfl, ?_, ?_⟩
  · rcases trace with _ | ⟨⟨bytes⟩ | ⟨k'⟩, tl⟩
    · rfl
    · rfl
    · rcases k' with _ | _ | _ | _ | _ <;> rfl
  · intro hok
    have : res = (.ok (), res.2) := by
      rcases res with ⟨r1, r2⟩
      simp only at hok
      rw [hok]
    rw [this] at hres
    simpa using default_read_exact_ok_length trace n [] res.2 hres
  · rcases k with _ | _ | _ | _ | _
    · exact absurd rfl hk
    · rfl
    · rfl
    · rfl
    · rfl
  · obtain ⟨used, rest', heq, hsup⟩ := default_read_exact_filled trace n [] res hres
    exact ⟨used, rest', heq, by simpa using hsup⟩

/-- Witness for C4 at a concrete input: requesting 5 bytes from an oracle that
supplies 2 bytes, an interrupted error, 1 byte, then end-of-data. -/
theorem read_exact_contract_witness :
    default_read_exact [ReadResult.ok [1, 2], .err .interrupted, .ok [3], .ok []] 0 [4]
        = some (.ok (), [4])
    ∧ (((.error .unexpectedEof, [1, 2, 3]) : Except ErrorKind Unit × List Nat).1 = .ok () →
        ((.error .unexpectedEof, [1, 2, 3]) : Except ErrorKind Unit × List Nat).2.length = 5)
    ∧ default_read_exact (.ok [] :: [ReadResult.ok [9]]) (5 + 1) [4]
        = some (.error .unexpectedEof, [4])
    ∧ default_read_exact (.err .interrupted :: [ReadResult.ok [9]]) (5 + 1) [4]
        = default_read_exact [ReadResult.ok [9]] (5 + 1) [4]
    ∧ default_read_exact (.err .writeZero :: [ReadResult.ok [9]]) (5 + 1) [4]
        = some (.error .writeZero, [4])
    ∧ (∃ used rest', ([ReadResult.ok [1, 2], .err .interrupted, .ok [3], .ok []]
            : List ReadResult) = used ++ rest'
        ∧ ((.error .unexpectedEof, [1, 2, 3]) : Except ErrorKind Unit × List Nat).2
            = suppliedBytes used) :=
  read_exact_contract [ReadResult.ok [1, 2], .err .interrupted, .ok [3], .ok []]
    [ReadResult.ok [9]] 5 [4] .writeZero (.error .unexpectedEof, [1, 2, 3])
    (by decide) (by decide)

-- Lemmas: default write_all =====================================================================

/-- A successful `write_all` consumed a prefix of the oracle whose accepted counts
sum to exactly the number of bytes to write. -/
theorem write_all_ok_accepted (trace : List WriteResult) (n : Nat)
    (h : write_all trace n = some (.ok ())) :
    ∃ used rest, trace = used ++ rest ∧ acceptedBytes used = n := by
  induction trace generalizing n with
  | nil =>
    match n with
    | 0 => exact ⟨[], [], rfl, rfl⟩
    | _ + 1 => simp [write_all] at h
  | cons hd rest ih =>
    match n with
    | 0 => exact ⟨[], hd :: rest, rfl, rfl⟩
    | m + 1 =>
      match hd with
      | .ok c =>
        by_cases h0 : c = 0
        · rw [h0] at h
          simp [write_all] at h
        · by_cases h1 : c ≤ m + 1
          · simp only [write_all] at h
            rw [if_neg h0, if_pos h1] at h
            obtain ⟨used, rest', heq, hacc⟩ := ih (m + 1 - c) h
            refine ⟨.ok c :: used, rest', by simp [heq], ?_⟩
            show c + acceptedBytes used = m + 1
            omega
          · simp only [write_all] at h
            rw [if_neg h0, if_neg h1] at h
            exact absurd h (by simp)
      | .err .interrupted =>
        obtain ⟨used, rest', heq, hacc⟩ := ih (m + 1) h
        exact ⟨.err .interrupted :: used, rest', by simp [heq], hacc⟩
      | .err .unexpectedEof => simp [write_all] at h
      | .err .writeZero => simp [write_all] at h
      | .err .invalidInput => simp [write_all] at h
      | .err .uncategorized => simp [write_all] at h

-- Claim theorem: C5 =============================================================================

/-- Claim C5: the default `write_all` succeeds immediately when nothing remains to
write; a success means the underlying writes accepted exactly the whole buffer;
a write accepting `0` bytes while data remains fails immediately with write-zero;
an interrupted error is retried with no other effect; any other error is returned
immediately; and the fixed-capacity byte-slice sink (whose overriding `write_all`
does a single `write`) fails with write-zero exactly when asked to write more than
its remaining capacity, rather than silently truncating. -/
theorem write_all_contract (trace rest : List WriteResult) (n cap srcLen : Nat)
    (k : ErrorKind) (hk : k ≠ .interrupted)
    (hok : write_all trace n = some (.ok ())) :
    write_all trace 0 = some (.ok ())
    ∧ (∃ used rest', trace = used ++ rest' ∧ acceptedBytes used = n)
    ∧ write_all (.ok 0 :: rest) (n + 1) = some (.error .writeZero)
    ∧ write_all (.err .interrupted :: rest) (n + 1) = write_all rest (n + 1)
    ∧ write_all (.err k :: rest) (n + 1) = some (.error k)
    ∧ (cap < srcLen → (slice_sink_write_all cap srcLen).2 = .error .writeZero)
    ∧ (srcLen ≤ cap →
        slice_sink_write_all cap srcLen = (cap - srcLen, .ok ())) := by
  refine ⟨?_, write_all_ok_accepted trace n hok, ?_, rfl, ?_, ?_, ?_⟩
  · rcases trace with _ | ⟨⟨c⟩ | ⟨k'⟩, tl⟩
    · rfl
    · rfl
    · rcases k' with _ | _ | _ | _ | _ <;> rfl
  · simp [write_all]
  · rcases k with _ | _ | _ | _ | _
    · exact absurd rfl hk
    · rfl
    · rfl
    · rfl
    · rfl
  · intro h
    have hm : ¬min srcLen cap = srcLen := by omega
    simp [slice_sink_write_all, slice_sink_write, hm]
  · intro h
    have hm : min srcLen cap = srcLen := by omega
    simp [slice_sink_write_all, slice_sink_write, hm]

/-- Witness for C5 at a concrete input: a 5-byte buffer accepted as 2 + 3 with an
interposed interrupted error, and a 4-byte sink asked model 6 bytes. -/
theorem write_all_contract_witness :
    write_all [WriteResult.ok 2, .err .interrupted, .ok 3] 0 = some (.ok ())
    ∧ (∃ used rest', ([WriteResult.ok 2, .err .interrupted, .ok 3] : List WriteResult)
          = used ++ rest' ∧ acceptedBytes used = 5)
    ∧ write_all (.ok 0 :: [WriteResult.ok 1]) (5 + 1) = some (.error .writeZero)
    ∧ write_all (.err .interrupted :: [WriteResult.ok 1]) (5 + 1)
        = write_all [WriteResult.ok 1] (5 + 1)
    ∧ write_all (.err .invalidInput :: [WriteResult.ok 1]) (5 + 1)
        = some (.error .invalidInput)
    ∧ (4 < 6 → (slice_sink_write_all 4 6).2 = .error .writeZero)
    ∧ (6 ≤ 4 → slice_sink_write_all 4 6 = (4 - 6, .ok ())) :=
  write_all_contract [WriteResult.ok 2, .err .interrupted, .ok 3] [WriteResult.ok 1]
    5 4 6 .invalidInput (by decide) (by decide)

-- Lemmas: stream_len ============================================================================

/-- A successful `Current 0` seek on a cursor-style stream leaves the position
unchanged and reports it. -/
theorem cursorSeek_cur_law (L u u' p : Nat)
    (h : cursor_seek L u (.current 0) = (u', .ok p)) : u' = u ∧ p = u := by
  have h0 : i64_as_u64 0 = 0 := by
    unfold i64_as_u64
    simp
  have hc : cursor_seek L u (.current 0) = cursor_seek_offset u u 0 := rfl
  rw [hc] at h
  unfold cursor_seek_offset overflowing_add at h
  rw [h0] at h
  by_cases hu : U64_MOD ≤ u
  · simp [hu] at h
  · simp [hu] at h
    have hlt : u % U64_MOD = u := Nat.mod_eq_of_lt (by omega)
    rw [hlt] at h
    exact ⟨h.1.symm, h.2.symm⟩

/-- A successful `Start m` seek on a cursor-style stream sets the position to `m`. -/
theorem cursorSeek_start_law (L u m u' q : Nat)
    (h : cursor_seek L u (.start m) = (u', .ok q)) : u' = m := by
  unfold cursor_seek at h
  simp only [Prod.mk.injEq] at h
  exact h.1.symm

/-- A successful `End 0` seek on a cursor-style stream sets the position to the
reported length. -/
theorem cursorSeek_end_law (L u u' l : Nat)
    (h : cursor_seek L u (.fromEnd 0) = (u', .ok l)) : u' = l := by
  have h0 : i64_as_u64 0 = 0 := by
    unfold i64_as_u64
    simp
  have hc : cursor_seek L u (.fromEnd 0) = cursor_seek_offset u L 0 := rfl
  rw [hc] at h
  unfold cursor_seek_offset overflowing_add at h
  rw [h0] at h
  by_cases hu : U64_MOD ≤ L
  · simp [hu] at h
  · simp [hu] at h
    rw [h.1.symm, h.2.symm]

-- Claim theorem: C9 =============================================================================

/-- Claim C9: for any seekable stream whose seek operation is lawful (a successful
`Current 0` seek preserves and reports the position, a successful `Start m` seek
moves to `m`, and a successful `End 0` seek moves to the reported length), the
default `stream_len` makes at most two seeks beyond the initial position query
(exactly none beyond end-seek when the position was already at the end), restores
the position exactly on success, and returns the end position reported by the
end-seek. -/
theorem stream_len_restores {σ : Type} (posOf : σ → Nat)
    (seekFn : σ → SeekFrom → σ × Except ErrorKind Nat) (s s' : σ) (r k : Nat)
    (hcur : ∀ u u' p, seekFn u (.current 0) = (u', .ok p) →
      posOf u' = posOf u ∧ p = posOf u)
    (hstart : ∀ u m u' q, seekFn u (.start m) = (u', .ok q) → posOf u' = m)
    (hend : ∀ u u' l, seekFn u (.fromEnd 0) = (u', .ok l) → posOf u' = l)
    (hres : default_stream_len seekFn s = (s', .ok r, k)) :
    posOf s' = posOf s
    ∧ k ≤ 3
    ∧ (r = posOf s → k = 2)
    ∧ (∃ s₁ s₂, seekFn s (.current 0) = (s₁, .ok (posOf s))
        ∧ seekFn s₁ (.fromEnd 0) = (s₂, .ok r)) := by
  unfold default_stream_len at hres
  rcases h₁ : seekFn s (.current 0) with ⟨s₁, e₁⟩
  rw [h₁] at hres
  rcases e₁ with e₁ | oldPos
  · simp only [] at hres
    simp at hres
  · obtain ⟨hp₁, hp₂⟩ := hcur s s₁ oldPos h₁
    have hres₁ : stream_len_end seekFn s₁ oldPos = (s', .ok r, k) := hres
    unfold stream_len_end at hres₁
    rcases h₂ : seekFn s₁ (.fromEnd 0) with ⟨s₂, e₂⟩
    rw [h₂] at hres₁
    rcases e₂ with e₂ | len
    · simp only [] at hres₁
      simp at hres₁
    · have hl₂ := hend s₁ s₂ len h₂
      have hres₂ : stream_len_restore seekFn oldPos s₂ len = (s', .ok r, k) := hres₁
      unfold stream_len_restore at hres₂
      by_cases hne : oldPos = len
      · rw [if_neg (by simpa using hne)] at hres₂
        simp only [Prod.mk.injEq, Except.ok.injEq] at hres₂
        obtain ⟨hs', hr, hk⟩ := hres₂
        subst hs' hr hk
        refine ⟨by omega, by omega, fun _ => rfl, ⟨s₁, s₂, ?_, ?_⟩⟩
        · rw [← hp₂]
        · exact h₂
      · rw [if_pos (by simpa using hne)] at hres₂
        rcases h₃ : seekFn s₂ (.start oldPos) with ⟨s₃, e₃⟩
        rw [h₃] at hres₂
        rcases e₃ with e₃ | q
        · simp only [] at hres₂
          simp at hres₂
        · have hl₃ := hstart s₂ oldPos s₃ q h₃
          simp only [] at hres₂
          simp only [Prod.mk.injEq, Except.ok.injEq] at hres₂
          obtain ⟨hs', hr, hk⟩ := hres₂
          subst hs' hr hk
          refine ⟨by omega, by omega, fun hc => absurd (by omega : oldPos = len) hne, ?_⟩
          exact ⟨s₁, s₂, by rw [← hp₂], h₂⟩

/-- Witness for C9: the position-only stream given by cursor arithmetic over a
5-byte container, starting at position 2 (end seek reports 5, a third seek
restores the position). -/
theorem stream_len_restores_witness :
    (fun p : Nat => p) 2 = (fun p : Nat => p) 2
    ∧ 3 ≤ 3
    ∧ (5 = (fun p : Nat => p) 2 → 3 = 2)
    ∧ (∃ s₁ s₂, cursor_seek 5 2 (.current 0) = (s₁, .ok ((fun p : Nat => p) 2))
        ∧ cursor_seek 5 s₁ (.fromEnd 0) = (s₂, .ok 5)) :=
  stream_len_restores (fun p : Nat => p) (cursor_seek 5) 2 2 5 3
    (fun u u' p h => cursorSeek_cur_law 5 u u' p h)
    (fun u m u' q h => cursorSeek_start_law 5 u m u' q h)
    (fun u u' l h => cursorSeek_end_law 5 u u' l h)
    (by decide)

end AcidIo
